import Mathlib

/-!
Verification of the arbitrary-precision integer library `integer.h`
(jamesyoungdigital/integer).

The repository ships the class header `src/integer.h`.  The header contains,
in full, the template members that carry most of the parsing and query logic:
the iterator-range constructor (bases 2..10, 16, 256), `setFromZ`, `log` and
`pow`.  The out-of-line operator implementations (`operator+=`, `operator*`,
`operator<<=`, `operator/`, `operator%`, `trim`, `non_recursive_divmod`, ...)
are declared in the header but their definitions live in a source file that is
not part of the repository snapshot; wherever such an operation is needed it is
modelled from the specification (each such definition carries a doc comment
starting with `Modelled from the spec:`).

Digits are 8 bits wide (`DIGIT = uint8_t`, `BITS = 8`, base B = 256) and the
magnitude is stored most-significant digit first, exactly as in the header.
-/

/-! ## Character classification (C `<cctype>`, "C" locale, ASCII)

The constructor calls `std::isdigit`, `std::isxdigit`, `std::isalpha`,
`std::islower` and `std::isupper` on the input characters.  These are the
standard C classification functions, modelled on ASCII codes 0..255. -/

/-- C `isdigit`: the character codes of `0`..`9` (48..57). -/
def isdigitChar (c : ℕ) : Bool := 48 ≤ c && c ≤ 57

/-- C `islower`: the character codes of `a`..`z` (97..122). -/
def islowerChar (c : ℕ) : Bool := 97 ≤ c && c ≤ 122

/-- C `isupper`: the character codes of `A`..`Z` (65..90). -/
def isupperChar (c : ℕ) : Bool := 65 ≤ c && c ≤ 90

/-- C `isalpha`: a lowercase or uppercase letter. -/
def isalphaChar (c : ℕ) : Bool := islowerChar c || isupperChar c

/-- C `isxdigit`: a decimal digit or one of `a`..`f`, `A`..`F`. -/
def isxdigitChar (c : ℕ) : Bool :=
  isdigitChar c || (97 ≤ c && c ≤ 102) || (65 ≤ c && c ≤ 70)

/-! ## Data model -/

/-- Error kinds thrown by the library (`std::runtime_error` sites classified as
in the specification, section 7): an invalid digit in a parse input, or a base
outside the accepted set. -/
inductive PErr where
  | InvalidDigit : PErr
  | BadBase : PErr
deriving DecidableEq

/-- The BigInt data model of `integer.h`: `_sign` (`false` = non-negative,
`true` = negative) and `_value`, the magnitude as base-256 digits stored
most-significant digit first (`std::deque <uint8_t>` in the source, modelled
as a `List ℕ` of digit values). -/
structure integer where
  _sign : Bool
  _value : List ℕ
deriving DecidableEq

/-- Value of a most-significant-first digit sequence in base 256. -/
def fromDigits (l : List ℕ) : ℕ := l.foldl (fun acc d => acc * 256 + d) 0

/-- Base-256 digits of `n`, most-significant first, no leading zeros
(`0` has the empty digit list).  Fuel-based so that it reduces in the kernel;
fuel `n` always suffices since the value shrinks by a factor 256 each step. -/
def natToDigitsAux : ℕ → ℕ → List ℕ
  | 0, _ => []
  | fuel + 1, n => if n = 0 then [] else natToDigitsAux fuel (n / 256) ++ [n % 256]

/-- Base-256 digits of `n`, most-significant first, trimmed. -/
def natToDigits (n : ℕ) : List ℕ := natToDigitsAux n n

/-- The mathematical value represented by an `integer`. -/
def integer.toInt (x : integer) : ℤ :=
  if x._sign then -(fromDigits x._value : ℤ) else (fromDigits x._value : ℤ)

/-- Canonical (trimmed) representation of a mathematical integer:
sign flag set exactly for negative values, magnitude digits without leading
zeros.  Used as the result shape of the spec-modelled arithmetic operators,
which the specification requires to re-establish the representation
invariants (section 3) before returning. -/
def mkInteger (z : ℤ) : integer := ⟨decide (z < 0), natToDigits z.natAbs⟩

/-- Remove leading zero digits from a most-significant-first magnitude. -/
def trimMag : List ℕ → List ℕ
  | [] => []
  | d :: rest => if d = 0 then trimMag rest else d :: rest

/-- Modelled from the spec: `integer::trim()` (declared in the header, defined
out of line) — "remove leading zero digits until either the sequence is empty
or its first element is non-zero; if the result is empty, set the sign to
non-negative" (section 4.1). -/
def integer.trim (x : integer) : integer :=
  let m := trimMag x._value
  ⟨if m = [] then false else x._sign, m⟩

/-- Modelled from the spec: `integer()` — the default constructor produces the
canonical zero (empty magnitude, non-negative sign). -/
def integerZero : integer := ⟨false, []⟩

/-! ## Spec-modelled arithmetic operators used by the header templates

The iterator constructor uses `operator+=`, `operator*` and `operator<<=`;
`log` uses `operator/=`; `pow` uses `operator*=` and `operator==`.  Their
definitions are not in the repository snapshot, so they are modelled from the
specification contract: each operation realises the corresponding exact
integer operation on the represented value (sections 4.5-4.9 and the laws of
section 8) and returns the canonical trimmed representation (section 4.1). -/

/-- Modelled from the spec: `operator+` / `operator+=` — exact integer
addition on the represented values (section 4.6). -/
def addInteger (a b : integer) : integer := mkInteger (a.toInt + b.toInt)

/-- Modelled from the spec: `operator*` / `operator*=` — exact integer
multiplication on the represented values (section 4.8). -/
def mulInteger (a b : integer) : integer := mkInteger (a.toInt * b.toInt)

/-- Modelled from the spec: `operator<<=` — left shift by `k` bits multiplies
the represented value by `2^k`, sign preserved (section 4.5). -/
def shlInteger (a : integer) (k : ℕ) : integer := mkInteger (a.toInt * 2 ^ k)

/-! ## The iterator-range constructor (fully present in `src/integer.h`,
lines 130-176)

The input range is modelled as a `List ℕ` of character/byte values and the
loop is transliterated branch by branch.  All mutation of `*this` goes through
the spec-modelled operators above; the base-256 branch pushes raw bytes
(`DIGIT(*start)`, i.e. the value mod 256) onto the magnitude directly. -/

/-- The `2 <= base && base <= 10` loop of the iterator constructor:
for each character, reject non-digits, otherwise execute
`*this += (*this * base) + (*start - '0')`. -/
def loopBase2to10 (base : ℕ) : List ℕ → integer → Except PErr integer
  | [], st => .ok st
  | c :: rest, st =>
    if isdigitChar c then
      loopBase2to10 base rest
        (addInteger st (addInteger (mulInteger st (mkInteger (base : ℤ)))
          (mkInteger ((c : ℤ) - 48))))
    else .error .InvalidDigit

/-- The `base == 16` loop of the iterator constructor: per character,
`*this <<= 4`, then dispatch on `isxdigit || isalpha` / `isdigit` /
`islower` / `isupper`, adding `c - '0'`, `c - 'a'` or `c - 'A'`
respectively; otherwise throw. -/
def loopBase16 : List ℕ → integer → Except PErr integer
  | [], st => .ok st
  | c :: rest, st =>
    let st1 := shlInteger st 4
    if isxdigitChar c || isalphaChar c then
      if isdigitChar c then loopBase16 rest (addInteger st1 (mkInteger ((c : ℤ) - 48)))
      else if islowerChar c then loopBase16 rest (addInteger st1 (mkInteger ((c : ℤ) - 97)))
      else if isupperChar c then loopBase16 rest (addInteger st1 (mkInteger ((c : ℤ) - 65)))
      else .error .InvalidDigit
    else .error .InvalidDigit

/-- The iterator-range constructor
`integer(Iterator start, const Iterator & end, const uint16_t & base)`
(src/integer.h lines 130-176): delegate to `integer()`; return that zero at
once if the range is empty; otherwise dispatch on the base (2..10, 16, 256,
else throw BadBase); finally set `_sign = s` (`s` is always `false`) and
`trim()`. -/
def integer.fromRange (input : List ℕ) (base : ℕ) : Except PErr integer :=
  if input = [] then .ok integerZero
  else if 2 ≤ base ∧ base ≤ 10 then
    (loopBase2to10 base input integerZero).map (fun st => integer.trim ⟨false, st._value⟩)
  else if base = 16 then
    (loopBase16 input integerZero).map (fun st => integer.trim ⟨false, st._value⟩)
  else if base = 256 then
    .ok (integer.trim ⟨false, input.map (· % 256)⟩)
  else .error .BadBase

/-! ## Division and modulus

`non_recursive_divmod`, `dm`, `operator/` and `operator%` are declared in
`src/integer.h` (lines 546-610) but defined out of line, so they are modelled
from the specification, section 4.9. -/

/-- Bit length of a natural number (`bits()` of the magnitude, section 4.10:
`(digit_count - 1)*W + (W - clz(top digit))`, which equals the position of the
highest set bit plus one; zero for zero).  Fuel-based so it reduces in the
kernel; fuel `n` suffices since the value halves each step. -/
def bitLenAux : ℕ → ℕ → ℕ
  | 0, _ => 0
  | fuel + 1, n => if n = 0 then 0 else bitLenAux fuel (n / 2) + 1

/-- Bit length of a natural number; see `bitLenAux`. -/
def bitLen (n : ℕ) : ℕ := bitLenAux n n

/-- Modelled from the spec: the loop of the non-recursive shift divmod
(section 4.9, step 2): at each step, if `copyd ≤ copyn` then
`copyn -= copyd; q |= adder`; then right-shift `copyd` and `adder` by 1.
The spec phrases the iteration count as "for i from 0 to n"; it is modelled
as running while the `adder` mask is non-zero — the `n` iterations
`i = 0 .. n-1` — since section 4.9 presents the procedure as schoolbook
binary long division and requires the divmod identity to hold.  The fuel
argument is `n`, after which `adder` has been shifted down to zero. -/
def nrLoopF : ℕ → ℕ → ℕ → ℕ → ℕ → ℕ × ℕ
  | 0, _, _, copyn, q => (q, copyn)
  | fuel + 1, copyd, adder, copyn, q =>
    if adder = 0 then (q, copyn)
    else
      nrLoopF fuel (copyd / 2) (adder / 2)
        (if copyd ≤ copyn then copyn - copyd else copyn)
        (if copyd ≤ copyn then q ||| adder else q)

/-- Modelled from the spec: `non_recursive_divmod` on magnitudes
(section 4.9): let `n = bits(lhs)`; start from `copyd = rhs << (n-1)`,
`adder = 1 << (n-1)`, `copyn = lhs`, `q = 0`, run the shift loop, and return
the quotient mask `q` and the leftover `copyn` as remainder. -/
def non_recursive_divmod (lhs rhs : ℕ) : ℕ × ℕ :=
  let n := bitLen lhs
  nrLoopF n (rhs <<< (n - 1)) (1 <<< (n - 1)) lhs 0

/-- Modelled from the spec: `operator/` — magnitudes are divided with
`non_recursive_divmod`; the quotient sign is the XOR of the operand signs
(section 4.9). -/
def divOp (a b : ℤ) : ℤ :=
  let q := (non_recursive_divmod a.natAbs b.natAbs).1
  if (a < 0) ↔ (b < 0) then (q : ℤ) else -(q : ℤ)

/-- Modelled from the spec: `operator%` — magnitudes are divided with
`non_recursive_divmod`; the remainder takes the sign of the dividend
(section 4.9). -/
def modOp (a b : ℤ) : ℤ :=
  let r := (non_recursive_divmod a.natAbs b.natAbs).2
  if a < 0 then -(r : ℤ) else (r : ℤ)

/-! ## `setFromZ` (fully present in `src/integer.h`, lines 82-97)

`setFromZ` clears the magnitude, records the sign, negates negative input,
then peels 8-bit digits off the low end (`_value.push_front(val & NEG1);
val >>= BITS;`) while `val` is non-zero, and trims.  It is modelled here at
the 64-bit signed instantiation (`Z = int64_t`): the value is an integer in
`[-2^63, 2^63)`; `val = -val` is two's-complement wrapping negation (on the
most negative value the result wraps back to itself); `val & 255` is the
low byte, i.e. `val mod 256`; `val >>= 8` on a negative signed value is the
arithmetic shift, i.e. floor division by 256.  The `while (val)` loop is
given explicit fuel and yields `none` when the fuel is exhausted with `val`
still non-zero, so termination claims become fuel-independence claims. -/

/-- The digit-peeling loop of `setFromZ`: while `val` is non-zero, push the
low byte onto the front of the magnitude and arithmetically shift `val`
right by 8 bits.  Returns `none` if the fuel runs out before `val` hits 0. -/
def setFromZLoop : ℕ → ℤ → List ℕ → Option (List ℕ)
  | 0, v, acc => if v = 0 then some acc else none
  | fuel + 1, v, acc =>
    if v = 0 then some acc
    else setFromZLoop fuel (Int.ediv v 256) ((v % 256).toNat :: acc)

/-- `setFromZ` at `Z = int64_t`: record the sign, wrap-negate negative input
(the most negative value `-2^63` wraps to itself), peel base-256 digits into
the magnitude most-significant first, and trim. -/
def setFromZ64 (v : ℤ) (fuel : ℕ) : Option integer :=
  let v1 := if v < 0 then (if v = -(2 ^ 63) then v else -v) else v
  (setFromZLoop fuel v1 []).map (fun mag => integer.trim ⟨decide (v < 0), mag⟩)

/-! ## `log` (fully present in `src/integer.h`, lines 648-657)

`integer count = 0; integer x = *this; while (x) { x /= b; count++; }
return count;` — modelled on represented values, with `operator/=` the
spec-modelled `divOp`.  The loop is given fuel `|v| + 1`, which suffices for
every base `b ≥ 2` since the magnitude of `x` strictly decreases. -/

/-- The division-counting loop of `log`. -/
def logLoopF : ℕ → ℤ → ℤ → ℤ
  | 0, _, _ => 0
  | fuel + 1, b, x => if x = 0 then 0 else logLoopF fuel b (divOp x b) + 1

/-- `integer::log(b)` on represented values. -/
def integerLog (v b : ℤ) : ℤ := logLoopF (v.natAbs + 1) b v

/-! ## `pow` (fully present in `src/integer.h`, lines 660-679)

Negative exponents return 0.  If `*this == 10`, the result is built by
repeated multiplication (`for (Z x = 0; x < exp; x++) result *= *this;`);
otherwise binary squaring: `while (exp) { if (exp & 1) result *= b;
exp >>= 1; b *= b; }`.  Modelled on represented values with the exponent a
mathematical integer; for a non-negative exponent the loop state is its
natural-number value.  The squaring loop carries fuel `exp + 1`, which
suffices since the exponent halves each iteration. -/

/-- The repeated-multiplication loop taken when the base equals 10. -/
def mulLoop (v : ℤ) : ℕ → ℤ
  | 0 => 1
  | e + 1 => mulLoop v e * v

/-- The binary-squaring loop of `pow`: state `(result, b, exp)`. -/
def powLoopF : ℕ → ℤ → ℤ → ℕ → ℤ
  | 0, result, _, _ => result
  | fuel + 1, result, b, e =>
    if e = 0 then result
    else powLoopF fuel (if e % 2 = 1 then result * b else result) (b * b) (e / 2)

/-- `integer::pow(exp)` on represented values. -/
def integerPow (v e : ℤ) : ℤ :=
  if e < 0 then 0
  else if v = 10 then mulLoop v e.toNat
  else powLoopF (e.toNat + 1) 1 v e.toNat

/-! ## Correctness of the shift divmod -/

/-- Auxiliary bit fact: OR-ing `2^k` into a multiple of `2^(k+1)` is the same
as adding it (the bit is free). -/
lemma two_pow_succ_mul_lor_two_pow (k m : ℕ) :
    (2 ^ (k + 1) * m) ||| 2 ^ k = 2 ^ (k + 1) * m + 2 ^ k := by
  induction k generalizing m with
  | zero =>
    have h := Nat.lor_bit false m true 0
    simp [Nat.bit] at h
    simpa [pow_succ, mul_comm, two_mul] using h
  | succ j ih =>
    have h := Nat.lor_bit false (2 ^ (j + 1) * m) false (2 ^ j)
    simp [Nat.bit] at h
    have h2 := ih m
    ring_nf
    ring_nf at h h2
    omega

/-- OR-ing the mask `2^k` into a quotient accumulator that is divisible by
`2^(k+1)` adds the mask. -/
lemma lor_two_pow_of_dvd {q : ℕ} (k : ℕ) (h : 2 ^ (k + 1) ∣ q) :
    q ||| 2 ^ k = q + 2 ^ k := by
  obtain ⟨m, rfl⟩ := h
  exact two_pow_succ_mul_lor_two_pow k m

/-- The shift loop of `non_recursive_divmod` computes division with
remainder: started at mask `2^k` with aligned divisor `d * 2^k`, dividend
`c < d * 2^(k+1)` and a quotient accumulator divisible by `2^(k+1)`, it
returns `(q + c / d, c % d)`. -/
lemma nrLoopF_spec {d : ℕ} (hd : 0 < d) :
    ∀ k c q, c < d * 2 ^ (k + 1) → 2 ^ (k + 1) ∣ q →
      nrLoopF (k + 1) (d * 2 ^ k) (2 ^ k) c q = (q + c / d, c % d) := by
  intro k
  induction k with
  | zero =>
    intro c q hc hq
    rw [show nrLoopF 1 (d * 2 ^ 0) (2 ^ 0) c q
        = nrLoopF 0 (d * 2 ^ 0 / 2) (2 ^ 0 / 2)
            (if d * 2 ^ 0 ≤ c then c - d * 2 ^ 0 else c)
            (if d * 2 ^ 0 ≤ c then q ||| 2 ^ 0 else q) from by
      simp [nrLoopF]]
    simp only [pow_zero, mul_one, pow_one] at *
    by_cases hdc : d ≤ c
    · have h1 : q ||| 1 = q + 1 := by
        have := lor_two_pow_of_dvd 0 (by simpa using hq)
        simpa using this
      have h2 : c / d = 1 := by
        have := Nat.div_eq_sub_div hd hdc
        rw [this, Nat.div_eq_of_lt (by omega)]
      have h3 : c % d = c - d := by
        rw [Nat.mod_eq_sub_mod hdc, Nat.mod_eq_of_lt (by omega)]
      simp [nrLoopF, hdc, h1, h2, h3]
    · have h2 : c / d = 0 := Nat.div_eq_of_lt (by omega)
      have h3 : c % d = c := Nat.mod_eq_of_lt (by omega)
      simp [nrLoopF, hdc, h2, h3]
  | succ j ih =>
    intro c q hc hq
    have had : (2 : ℕ) ^ (j + 1) ≠ 0 := by positivity
    have hcd2 : d * 2 ^ (j + 1) / 2 = d * 2 ^ j := by
      rw [pow_succ, ← mul_assoc, Nat.mul_div_cancel _ (by norm_num)]
    have had2 : (2 : ℕ) ^ (j + 1) / 2 = 2 ^ j := by
      rw [pow_succ, Nat.mul_div_cancel _ (by norm_num)]
    rw [show nrLoopF (j + 2) (d * 2 ^ (j + 1)) (2 ^ (j + 1)) c q
        = nrLoopF (j + 1) (d * 2 ^ (j + 1) / 2) (2 ^ (j + 1) / 2)
            (if d * 2 ^ (j + 1) ≤ c then c - d * 2 ^ (j + 1) else c)
            (if d * 2 ^ (j + 1) ≤ c then q ||| 2 ^ (j + 1) else q) from by
      simp [nrLoopF, had]]
    rw [hcd2, had2]
    have hpow : d * 2 ^ (j + 1 + 1) = d * 2 ^ (j + 1) * 2 := by ring
    have hc2 : c < d * 2 ^ (j + 1) * 2 := by rw [hpow] at hc; exact hc
    by_cases hdc : d * 2 ^ (j + 1) ≤ c
    · have hq' : q ||| 2 ^ (j + 1) = q + 2 ^ (j + 1) := lor_two_pow_of_dvd (j + 1) hq
      have hdvd : 2 ^ (j + 1) ∣ q + 2 ^ (j + 1) :=
        dvd_add (dvd_trans (pow_dvd_pow 2 (by omega)) hq) dvd_rfl
      have hlt : c - d * 2 ^ (j + 1) < d * 2 ^ (j + 1) := by omega
      rw [if_pos hdc, if_pos hdc, hq', ih _ _ hlt hdvd]
      have hcc : c = (c - d * 2 ^ (j + 1)) + d * 2 ^ (j + 1) := by omega
      have hdivc : c / d = (c - d * 2 ^ (j + 1)) / d + 2 ^ (j + 1) := by
        conv_lhs => rw [hcc]
        exact Nat.add_mul_div_left _ _ hd
      have hmodc : c % d = (c - d * 2 ^ (j + 1)) % d := by
        conv_lhs => rw [hcc]
        exact Nat.add_mul_mod_self_left _ _ _
      rw [hdivc, hmodc, Prod.mk.injEq]
      exact ⟨by omega, rfl⟩
    · have hdvd : 2 ^ (j + 1) ∣ q := dvd_trans (pow_dvd_pow 2 (by omega)) hq
      rw [if_neg hdc, if_neg hdc, ih _ _ (by omega) hdvd]

/-- A number is smaller than two to its bit length (with enough fuel). -/
lemma bitLenAux_lt : ∀ fuel n, n ≤ fuel → n < 2 ^ bitLenAux fuel n := by
  intro fuel
  induction fuel with
  | zero => intro n hn; interval_cases n; simp [bitLenAux]
  | succ f ih =>
    intro n hn
    by_cases h : n = 0
    · simp [bitLenAux, h]
    · have hdiv : n / 2 < n := Nat.div_lt_self (by omega) (by omega)
      have := ih (n / 2) (by omega)
      have hmod := Nat.div_add_mod n 2
      have h2 : n % 2 < 2 := Nat.mod_lt _ (by omega)
      simp only [bitLenAux, h, if_false, pow_succ]
      omega

/-- A number is smaller than two to its bit length. -/
lemma lt_two_pow_bitLen (n : ℕ) : n < 2 ^ bitLen n := bitLenAux_lt n n le_rfl

/-- Only zero has bit length zero. -/
lemma bitLen_eq_zero {n : ℕ} (h : bitLen n = 0) : n = 0 := by
  by_contra hn
  obtain ⟨m, rfl⟩ := Nat.exists_eq_succ_of_ne_zero hn
  simp [bitLen, bitLenAux] at h

/-- `non_recursive_divmod` computes natural-number quotient and remainder. -/
lemma non_recursive_divmod_spec (lhs rhs : ℕ) (h : rhs ≠ 0) :
    non_recursive_divmod lhs rhs = (lhs / rhs, lhs % rhs) := by
  unfold non_recursive_divmod
  rcases hn : bitLen lhs with _ | m
  · have h0 : lhs = 0 := bitLen_eq_zero hn
    subst h0
    simp [nrLoopF, Nat.zero_div, Nat.zero_mod]
  · have hlt : lhs < 2 ^ (m + 1) := by
      have := lt_two_pow_bitLen lhs
      rwa [hn] at this
    have hbound : lhs < rhs * 2 ^ (m + 1) :=
      lt_of_lt_of_le hlt (Nat.le_mul_of_pos_left _ (by omega))
    have := nrLoopF_spec (d := rhs) (by omega) m lhs 0 hbound (dvd_zero _)
    simp only [Nat.add_sub_cancel, Nat.shiftLeft_eq, one_mul]
    rw [this]
    simp

/-! ## Support lemmas for `setFromZ`, `pow` and `log` -/

/-- The digit-peeling loop of `setFromZ` never terminates on a negative
value: the arithmetic right shift of a negative value stays negative, so the
`while (val)` guard never becomes false, whatever the fuel. -/
lemma setFromZLoop_neg : ∀ (fuel : ℕ) (v : ℤ) (acc : List ℕ),
    v < 0 → setFromZLoop fuel v acc = none := by
  intro fuel
  induction fuel with
  | zero =>
    intro v acc hv
    simp only [setFromZLoop]
    rw [if_neg (by omega : ¬v = 0)]
  | succ f ih =>
    intro v acc hv
    have hshift : Int.ediv v 256 < 0 := by
      show v / 256 < 0
      omega
    simp only [setFromZLoop, if_neg (by omega : ¬v = 0)]
    exact ih _ _ hshift

/-- The repeated-multiplication loop computes powers. -/
lemma mulLoop_spec (v : ℤ) : ∀ e : ℕ, mulLoop v e = v ^ e := by
  intro e
  induction e with
  | zero => simp [mulLoop]
  | succ n ih => simp [mulLoop, ih, pow_succ]

/-- The binary-squaring loop computes `result * b ^ e` whenever the fuel
exceeds the exponent. -/
lemma powLoopF_spec : ∀ (fuel : ℕ) (r b : ℤ) (e : ℕ), e ≤ fuel →
    powLoopF (fuel + 1) r b e = r * b ^ e := by
  intro fuel
  induction fuel with
  | zero =>
    intro r b e he
    have : e = 0 := by omega
    subst this
    simp [powLoopF]
  | succ f ih =>
    intro r b e he
    by_cases h0 : e = 0
    · subst h0; simp [powLoopF]
    · have hstep : powLoopF (f + 1 + 1) r b e
          = powLoopF (f + 1) (if e % 2 = 1 then r * b else r) (b * b) (e / 2) := by
        simp [powLoopF, h0]
      have hdiv : e / 2 < e := Nat.div_lt_self (by omega) (by omega)
      rw [hstep, ih _ _ _ (by omega)]
      have hsq : (b * b) ^ (e / 2) = b ^ (2 * (e / 2)) := by
        rw [pow_mul, pow_two]
      rcases Nat.even_or_odd e with he2 | he2
      · have hm : e % 2 = 0 := Nat.even_iff.mp he2
        have hif : (if e % 2 = 1 then r * b else r) = r := by simp [hm]
        have hee : 2 * (e / 2) = e := by omega
        rw [hif, hsq, hee]
      · have hm : e % 2 = 1 := Nat.odd_iff.mp he2
        have hif : (if e % 2 = 1 then r * b else r) = r * b := by simp [hm]
        have hee : 2 * (e / 2) + 1 = e := by omega
        rw [hif, hsq, mul_assoc, mul_comm b (b ^ (2 * (e / 2))), ← pow_succ, hee]

/-- Signed division unfolded through the divmod algorithm. -/
lemma divOp_eq (a b : ℤ) (hb : b ≠ 0) :
    divOp a b = if (a < 0) ↔ (b < 0)
      then ((a.natAbs / b.natAbs : ℕ) : ℤ) else -((a.natAbs / b.natAbs : ℕ) : ℤ) := by
  simp [divOp, non_recursive_divmod_spec a.natAbs b.natAbs (Int.natAbs_ne_zero.mpr hb)]

/-- Signed remainder unfolded through the divmod algorithm. -/
lemma modOp_eq (a b : ℤ) (hb : b ≠ 0) :
    modOp a b = if a < 0
      then -((a.natAbs % b.natAbs : ℕ) : ℤ) else ((a.natAbs % b.natAbs : ℕ) : ℤ) := by
  simp [modOp, non_recursive_divmod_spec a.natAbs b.natAbs (Int.natAbs_ne_zero.mpr hb)]

/-- C1: for every BigInt `a` and non-zero BigInt `b`, division and modulus
(the spec-modelled sign dispatch over `non_recursive_divmod`) satisfy the
divmod identity `a = (a / b) * b + (a % b)` with `|a % b| < |b|`; the
remainder takes the sign of the dividend when non-zero, and the quotient,
when non-zero, is negative exactly when the operand signs differ (truncated,
C-style semantics). -/
theorem divmod_identity_C1 (a b : ℤ) (hb : b ≠ 0) :
    a = divOp a b * b + modOp a b ∧
    (modOp a b).natAbs < b.natAbs ∧
    (modOp a b ≠ 0 → (modOp a b < 0 ↔ a < 0)) ∧
    (divOp a b ≠ 0 → (divOp a b < 0 ↔ Xor' (a < 0) (b < 0))) := by
  have hd0 : 0 < b.natAbs := Int.natAbs_pos.mpr hb
  have hQR : b.natAbs * (a.natAbs / b.natAbs) + a.natAbs % b.natAbs = a.natAbs :=
    Nat.div_add_mod _ _
  have hQRz : (b.natAbs : ℤ) * ((a.natAbs / b.natAbs : ℕ) : ℤ)
      + ((a.natAbs % b.natAbs : ℕ) : ℤ) = (a.natAbs : ℤ) := by exact_mod_cast hQR
  have hR : a.natAbs % b.natAbs < b.natAbs := Nat.mod_lt _ hd0
  rw [divOp_eq a b hb, modOp_eq a b hb]
  by_cases ha : a < 0 <;> by_cases hbneg : b < 0
  · have hiff : (a < 0) ↔ (b < 0) := iff_of_true ha hbneg
    have h1 : ((a.natAbs : ℕ) : ℤ) = -a := by omega
    have h2 : ((b.natAbs : ℕ) : ℤ) = -b := by omega
    rw [if_pos hiff, if_pos ha]
    rw [h1, h2] at hQRz
    refine ⟨by linarith, ?_, ?_, ?_⟩
    · rw [Int.natAbs_neg, Int.natAbs_ofNat]
      exact hR
    · intro hne
      simp only [ha, iff_true]
      omega
    · intro hne
      have hx : ¬ Xor' (a < 0) (b < 0) := by simp [Xor', ha, hbneg]
      have h0 : (0 : ℤ) ≤ ((a.natAbs / b.natAbs : ℕ) : ℤ) := by positivity
      exact iff_of_false (not_lt.mpr h0) hx
  · have hiff : ¬((a < 0) ↔ (b < 0)) := by
      intro h
      exact absurd (h.mp ha) hbneg
    have h1 : ((a.natAbs : ℕ) : ℤ) = -a := by omega
    have h2 : ((b.natAbs : ℕ) : ℤ) = b := by omega
    rw [if_neg hiff, if_pos ha]
    rw [h1, h2] at hQRz
    refine ⟨by linarith, ?_, ?_, ?_⟩
    · rw [Int.natAbs_neg, Int.natAbs_ofNat]
      exact hR
    · intro hne
      simp only [ha, iff_true]
      omega
    · intro hne
      have hx : Xor' (a < 0) (b < 0) := Or.inl ⟨ha, hbneg⟩
      have h0 : (0 : ℤ) ≤ ((a.natAbs / b.natAbs : ℕ) : ℤ) := by positivity
      exact iff_of_true (lt_of_le_of_ne (neg_nonpos.mpr h0) hne) hx
  · have hiff : ¬((a < 0) ↔ (b < 0)) := by
      intro h
      exact absurd (h.mpr hbneg) ha
    have h1 : ((a.natAbs : ℕ) : ℤ) = a := by omega
    have h2 : ((b.natAbs : ℕ) : ℤ) = -b := by omega
    rw [if_neg hiff, if_neg ha]
    rw [h1, h2] at hQRz
    refine ⟨by linarith, ?_, ?_, ?_⟩
    · rw [Int.natAbs_ofNat]
      exact hR
    · intro hne
      simp only [ha, iff_false]
      omega
    · intro hne
      have hx : Xor' (a < 0) (b < 0) := Or.inr ⟨hbneg, ha⟩
      have h0 : (0 : ℤ) ≤ ((a.natAbs / b.natAbs : ℕ) : ℤ) := by positivity
      exact iff_of_true (lt_of_le_of_ne (neg_nonpos.mpr h0) hne) hx
  · have hiff : (a < 0) ↔ (b < 0) := iff_of_false ha hbneg
    have h1 : ((a.natAbs : ℕ) : ℤ) = a := by omega
    have h2 : ((b.natAbs : ℕ) : ℤ) = b := by omega
    rw [if_pos hiff, if_neg ha]
    rw [h1, h2] at hQRz
    refine ⟨by linarith, ?_, ?_, ?_⟩
    · rw [Int.natAbs_ofNat]
      exact hR
    · intro hne
      simp only [ha, iff_false]
      omega
    · intro hne
      have hx : ¬ Xor' (a < 0) (b < 0) := by simp [Xor', ha, hbneg]
      have h0 : (0 : ℤ) ≤ ((a.natAbs / b.natAbs : ℕ) : ℤ) := by positivity
      exact iff_of_false (not_lt.mpr h0) hx

/-- Witness for C1 at the spec's own concrete scenario `-7 divmod 2`:
the identity and remainder bound hold, and the computed values are the
C-style quotient `-3` and remainder `-1`. -/
theorem divmod_identity_C1_witness :
    ((-7 : ℤ) = divOp (-7) 2 * 2 + modOp (-7) 2 ∧
      (modOp (-7 : ℤ) 2).natAbs < (2 : ℤ).natAbs) ∧
    divOp (-7) 2 = -3 ∧ modOp (-7) 2 = -1 := by
  have h := divmod_identity_C1 (-7) 2 (by decide)
  exact ⟨⟨h.1, h.2.1⟩, by decide, by decide⟩

/-- C2: claimed per-character update `value <- value * base + (c - '0')` for
bases 2..10, so that a valid digit string parses to the number it denotes.
The code instead executes `*this += (*this * base) + (*start - '0')`, i.e.
`value <- value * (base + 1) + digit`: parsing the two-character string `12`
in base 10 yields the BigInt 13 (magnitude digits `[13]`), not 12. -/
theorem parse_base10_accumulates_wrong_C2 :
    integer.fromRange [49, 50] 10 = Except.ok ⟨false, [13]⟩ ∧
    (integer.toInt ⟨false, [13]⟩ = 13 ∧ (13 : ℤ) ≠ 12) := by
  exact ⟨rfl, rfl, by decide⟩

/-- C3: claimed hex digit values `'a'..'f' -> 10..15` and `'A'..'F' -> 10..15`.
The code adds `*start - 'a'` (resp. `*start - 'A'`) without the offset 10,
so the single character `a` (code 97) parses to 0 (the canonical zero, empty
magnitude), not to the claimed 10. -/
theorem parse_hex_letter_value_wrong_C3 :
    integer.fromRange [97] 16 = Except.ok ⟨false, []⟩ ∧
    (integer.toInt ⟨false, []⟩ = 0 ∧ (0 : ℤ) ≠ 10) := by
  exact ⟨rfl, rfl, by decide⟩

/-- C7: claimed that in base 16 every character outside
`0..9, a..f, A..F` fails with InvalidDigit.  The code's guard is
`isxdigit(*start) || isalpha(*start)`, which admits every letter: the
character `g` (code 103) is accepted as the digit value `'g' - 'a' = 6`
(the throw for letters past `f` is unreachable), instead of raising an
error. -/
theorem parse_hex_accepts_g_C7 :
    integer.fromRange [103] 16 = Except.ok ⟨false, [6]⟩ := by
  exact rfl

/-- C4: claimed that constructing from any native integer of width up to
64 bits — including the most negative value of each signed width — yields
that value and terminates.  At `V = INT64_MIN = -2^63` the code's
`val = -val` wraps back to `-2^63`; the value stays negative under the
arithmetic right shift `val >>= BITS`, so the `while (val)` loop never
terminates: for every fuel bound the loop fails to finish. -/
theorem setFromZ_int64_min_diverges_C4 :
    ∀ fuel : ℕ, setFromZ64 (-(2 ^ 63)) fuel = none := by
  intro fuel
  have hneg : (-(2 ^ 63) : ℤ) < 0 := by norm_num
  simp only [setFromZ64, if_pos hneg, if_pos rfl, if_true]
  rw [setFromZLoop_neg fuel _ _ hneg]
  rfl

/-- C5: claimed `log(b) = floor(log_b |v|)` for non-zero `v`.  The code
counts how often `x /= b` is applied until `x` becomes zero, which is
`floor(log_b |v|) + 1` for non-zero `v`: at `v = 1`, `b = 2` it returns 1,
while `floor(log_2 1) = 0` (witnessed by `Nat.log`). -/
theorem log_off_by_one_C5 :
    integerLog 1 2 = 1 ∧ Nat.log 2 1 = 0 := by
  exact ⟨by decide, Nat.log_one_right 2⟩

/-- C6: `pow` returns `v ^ e` for every non-negative exponent `e` — on the
repeated-multiplication path taken when `v = 10` just as on the
binary-squaring path — and returns zero for every negative exponent. -/
theorem pow_correct_C6 (v e : ℤ) :
    (0 ≤ e → integerPow v e = v ^ e.toNat) ∧ (e < 0 → integerPow v e = 0) := by
  constructor
  · intro he
    unfold integerPow
    rw [if_neg (by omega)]
    by_cases hv : v = 10
    · rw [if_pos hv, mulLoop_spec, hv]
    · rw [if_neg hv, powLoopF_spec _ _ _ _ le_rfl, one_mul]
  · intro he
    unfold integerPow
    rw [if_pos he]

/-- Witness for C6: `2^100` is the spec's concrete scenario value,
`10^3` exercises the repeated-multiplication path, and a negative
exponent returns zero. -/
theorem pow_correct_C6_witness :
    integerPow 2 100 = 1267650600228229401496703205376 ∧
    integerPow 10 3 = 1000 ∧ integerPow 3 (-2) = 0 := by
  have h1 := (pow_correct_C6 2 100).1 (by decide)
  have h2 := (pow_correct_C6 10 3).1 (by decide)
  have h3 := (pow_correct_C6 3 (-2)).2 (by decide)
  refine ⟨?_, ?_, h3⟩
  · rw [h1, show Int.toNat 100 = 100 from rfl]; norm_num
  · rw [h2, show Int.toNat 3 = 3 from rfl]; norm_num

/-- C8 counterexample: the claim quantifies over every iterator range, but
the constructor returns the default-constructed zero before examining the
base whenever the range is empty, so the empty range with the bad base 11
succeeds instead of failing with BadBase. -/
theorem fromRange_empty_bad_base_succeeds_C8 :
    integer.fromRange [] 11 ≠ Except.error PErr.BadBase := by
  intro h
  rw [show integer.fromRange [] 11 = Except.ok integerZero from rfl] at h
  exact Except.noConfusion h

/-- C8 (amended): for every non-empty iterator range, a base outside
`{2..10, 16, 256}` fails with a BadBase error. -/
theorem fromRange_bad_base_C8 (input : List ℕ) (base : ℕ) (hne : input ≠ [])
    (h1 : ¬(2 ≤ base ∧ base ≤ 10)) (h2 : base ≠ 16) (h3 : base ≠ 256) :
    integer.fromRange input base = Except.error PErr.BadBase := by
  unfold integer.fromRange
  rw [if_neg hne, if_neg h1, if_neg h2, if_neg h3]

/-- Witness for the amended C8: a one-character range with base 11. -/
theorem fromRange_bad_base_C8_witness :
    integer.fromRange [49] 11 = Except.error PErr.BadBase :=
  fromRange_bad_base_C8 [49] 11 (by decide) (by decide) (by decide) (by decide)

/-- C9: every successful result of the iterator constructor is non-negative:
its `_sign` flag is `false` whatever the input contents and base (the
constructor ends with `_sign = s;` where `s` is never set, then `trim()`,
which can only reset the sign to non-negative). -/
theorem fromRange_nonneg_C9 (input : List ℕ) (base : ℕ) (r : integer)
    (h : integer.fromRange input base = Except.ok r) : r._sign = false := by
  unfold integer.fromRange at h
  split_ifs at h with h1 h2 h3 h4
  · simp only [Except.ok.injEq] at h
    subst h
    rfl
  · cases hm : loopBase2to10 base input integerZero with
    | error e =>
      rw [hm] at h
      simp [Except.map] at h
    | ok st =>
      rw [hm] at h
      simp only [Except.map, Except.ok.injEq] at h
      subst h
      simp [integer.trim]
  · cases hm : loopBase16 input integerZero with
    | error e =>
      rw [hm] at h
      simp [Except.map] at h
    | ok st =>
      rw [hm] at h
      simp only [Except.map, Except.ok.injEq] at h
      subst h
      simp [integer.trim]
  · simp only [Except.ok.injEq] at h
    subst h
    simp [integer.trim]

/-- Witness for C9 at the decimal input `1` in base 10. -/
theorem fromRange_nonneg_C9_witness : (⟨false, [1]⟩ : integer)._sign = false :=
  fromRange_nonneg_C9 [49] 10 ⟨false, [1]⟩ rfl

/-- C10: for every base whatsoever — inside or outside the accepted set —
the constructor applied to the empty range succeeds immediately with the
canonical zero: the base argument is never examined. -/
theorem fromRange_empty_C10 (base : ℕ) :
    integer.fromRange [] base = Except.ok integerZero := rfl
